import Mathlib

/-!
Verification of the scoring / inference core of the Jungian-archetypes
assessment engine.

The development shallowly embeds the relevant JavaScript source into Lean:

* `src/core/quiz-engine.js` — the seeded sequencer (`makePRNG`,
  `shuffleSeeded`); JS 32-bit unsigned integers are modelled as `Nat`
  values kept below `2 ^ 32` (the `>>> 0` coercion is `% 2 ^ 32`), and a
  seed string is modelled as its list of UTF-16 code units.
* `src/core/scorer.js` — the answer reducer (`normalizeAnswer`), the
  weight-shape normalizer (`indexifyEight`, `pickSideKeys`,
  `normalizeWeightsShape`), the score accumulator (the loop body of
  `Scorer.score`), the axis aggregator (`agg` and the axes block of
  `score`), and the type resolver (`inferType`, `buildIndexSets`).

JS numbers are modelled as exact rationals `ℚ`; `NaN` is modelled as
`Option.none` where it can arise (weight-table entries produced by the
`Number(...)` coercion), which is adequate because every read of such an
entry in the source goes through a `x || 0` guard that sends both `NaN`
and `0` to `0`.
-/

namespace JungArch

/-! ### Sequencer: `makePRNG` and `shuffleSeeded` (quiz-engine.js) -/

/-- The 2^32 modulus of JS 32-bit integer coercions. -/
def U32 : ℕ := 4294967296

/-- `hash32` from `makePRNG`: FNV-style hash of the seed string (given as
its UTF-16 code-unit list) starting from a per-lane seed.  Each step is
`h ^= c; h = Math.imul(h, 16777619)`, i.e. XOR followed by a 32-bit
multiply. -/
def hash32 (codes : List ℕ) (seed : ℕ) : ℕ :=
  codes.foldl (fun h c => ((h ^^^ c) * 16777619) % U32) (seed % U32)

/-- The 4-lane xorshift128+ state `(a, b, c, d)` of `makePRNG`. -/
structure PrngState where
  a : ℕ
  b : ℕ
  c : ℕ
  d : ℕ
deriving Repr, DecidableEq

/-- Initial state of `makePRNG(seedStr)`: four hash lanes, each forced odd
by `| 1`. -/
def mkPrng (codes : List ℕ) : PrngState :=
  ⟨hash32 codes 0x9E3779B9 ||| 1, hash32 codes 0x85EBCA77 ||| 1,
   hash32 codes 0xC2B2AE3D ||| 1, hash32 codes 0x27D4EB2F ||| 1⟩

/-- One step of the xorshift128+ generator inside `makePRNG`; returns the
new 32-bit output word `d` together with the next state.  `x << 11` is
modelled as `x * 2 ^ 11 % 2 ^ 32`, `x >>> k` as `x / 2 ^ k`, and the final
`>>> 0` as `% 2 ^ 32`. -/
def prngNext (s : PrngState) : ℕ × PrngState :=
  let t := s.a ^^^ (s.a * 2 ^ 11 % U32)
  let d := (s.d ^^^ s.d / 2 ^ 19 ^^^ (t ^^^ t / 2 ^ 8)) % U32
  (d, ⟨s.b, s.c, s.d, d⟩)

/-- Swap of two positions of a list; the identity when either index is out
of range.  Models the JS destructuring swap `[out[i],out[j]]=[out[j],out[i]]`
(whose indices are always in range inside `shuffleSeeded`). -/
def listSwap (l : List α) (i j : ℕ) : List α :=
  match l.get? i, l.get? j with
  | some x, some y => (l.set i y).set j x
  | _, _ => l

/-- The Fisher–Yates loop of `shuffleSeeded`, counting the index `i` down
to `1`.  `Math.floor(prng() * (i + 1))` is exact double arithmetic on a
32-bit word, i.e. `r * (i + 1) / 2 ^ 32` in integer division. -/
def fisherLoop (s : PrngState) (out : List α) : ℕ → List α
  | 0 => out
  | i + 1 =>
    let rs := prngNext s
    let j := rs.1 * (i + 2) / U32
    fisherLoop rs.2 (listSwap out (i + 1) j) i

/-- `shuffleSeeded(arr, seed)`: copy the list and run the Fisher–Yates
loop from index `length - 1` using the seeded generator. -/
def shuffleSeeded (arr : List α) (seedCodes : List ℕ) : List α :=
  fisherLoop (mkPrng seedCodes) arr (arr.length - 1)

/-! ### Answer reducer: `normalizeAnswer` (scorer.js) -/

/-- The `{ dir, mag }` pair produced by `normalizeAnswer`. -/
structure DirMag where
  dir : ℤ
  mag : ℚ
deriving Repr, DecidableEq

/-- `normalizeAnswer(value)` from scorer.js.  `none` models `null` /
`undefined` / `NaN` input.  Note the two `if` statements of the source are
independent (no `else`): for `n` in the overlap `[1,2]` the second branch
overwrites the first, and both branches read the original `n`. -/
def normalizeAnswer : Option ℚ → DirMag
  | none => ⟨0, 0⟩
  | some n =>
    let v1 := if 1 ≤ n ∧ n ≤ 5 then n - 1 else n
    let v := if -2 ≤ n ∧ n ≤ 2 then n + 2 else v1
    let delta := v - 2
    ⟨if delta = 0 then 0 else if 0 < delta then 1 else -1,
     min 1 (|delta| / 2)⟩

/-! ### Score accumulator: the loop body of `Scorer.score` (scorer.js) -/

/-- A normalized weight row `{ A: {0..7}, B: {0..7} }`.  Entries are
`Option ℚ`: `none` models a JS `NaN` (producible by the `Number(...)`
coercion in `indexifyEight`) or an absent property (the `{}` side left by
a partial `side`/`weights` merge); every read in the scorer goes through
an `x || 0` guard, which sends all of these to `0`. -/
structure WeightRow where
  A : List (Option ℚ)
  B : List (Option ℚ)
deriving Repr, DecidableEq

/-- `Number(vec[i] || 0)`: read entry `i` of a side vector, with absent
(`undefined`), `NaN` and `0` all collapsing to `0`. -/
def getW (v : List (Option ℚ)) (i : ℕ) : ℚ :=
  ((v.get? i).getD none).getD 0

/-- One record of the canonicalized answers list produced by
`normalizeAnswersInput` (both accepted input forms — positional value
arrays and explicit `{id, value}` arrays — normalize to this shape).
`value = none` models `null`/`undefined`. -/
structure Answer where
  id : String
  value : Option ℚ
deriving Repr, DecidableEq

/-- The side selected by an applied answer (`dir > 0 ? 'A' : 'B'`). -/
inductive Side where
  | A
  | B
deriving Repr, DecidableEq

/-- One `debug.perItem` diagnostic record.  The source pushes
`{id, skipped:true}`, `{id, neutral:true}` or `{id, side, mag,
applied:true}`; an item whose `value` is `null`/`undefined` pushes
nothing. -/
inductive PerItem where
  | skipped (id : String)
  | neutral (id : String)
  | applied (id : String) (side : Side) (mag : ℚ)
deriving Repr, DecidableEq

/-- The accumulator of the `for (const { id, value } of arrAns)` loop of
`Scorer.score`: the eight-slot `raw` and `max` arrays, the `perItem`
diagnostics and the `used` counter. -/
structure ScoreAcc where
  raw : Fin 8 → ℚ
  max : Fin 8 → ℚ
  perItem : List PerItem
  used : ℕ

/-- The initial accumulator: `Array(8).fill(0)` twice, `[]`, `0`. -/
def initAcc : ScoreAcc :=
  ⟨fun _ => 0, fun _ => 0, [], 0⟩

/-- One iteration of the scoring loop, in source order: a `null` value is
skipped with no diagnostic; a missing weight row records `skipped`; a
neutral reduction (`mag === 0 || dir === 0`) records `neutral`; otherwise
the selected side vector is accumulated into `raw` and the per-dimension
ceiling `max(A[i], B[i])` into `max`. -/
def scoreStep (weights : String → Option WeightRow) (acc : ScoreAcc)
    (a : Answer) : ScoreAcc :=
  match a.value with
  | none => acc
  | some v =>
    match weights a.id with
    | none => { acc with perItem := acc.perItem ++ [PerItem.skipped a.id] }
    | some wid =>
      let dm := normalizeAnswer (some v)
      if dm.mag = 0 ∨ dm.dir = 0 then
        { acc with perItem := acc.perItem ++ [PerItem.neutral a.id] }
      else
        let side := if 0 < dm.dir then Side.A else Side.B
        let vec := if side = Side.A then wid.A else wid.B
        ⟨fun i => acc.raw i + dm.mag * getW vec i.val,
         fun i => acc.max i + max (getW wid.A i.val) (getW wid.B i.val),
         acc.perItem ++ [PerItem.applied a.id side dm.mag],
         acc.used + 1⟩

/-- The whole scoring loop over the canonicalized answers list. -/
def scoreRun (weights : String → Option WeightRow) (answers : List Answer) :
    ScoreAcc :=
  answers.foldl (scoreStep weights) initAcc

/-- `clamp01(x)` from scorer.js. -/
def clamp01 (x : ℚ) : ℚ := max 0 (min 1 x)

/-- The `1e-9` epsilon used as denominator guard. -/
def eps : ℚ := 1 / 1000000000

/-- One element of the `byFunction` result array.  The metadata fields
(`key`, `name`, `desc`) are omitted: no claim refers to them. -/
structure FuncScore where
  idx : ℕ
  raw : ℚ
  max : ℚ
  pct : ℚ
deriving Repr, DecidableEq

/-- The `byFunction` construction of `Scorer.score`: for each dimension,
`m = max[i] || 1e-9` and `pct = clamp01(raw/m) * 100`. -/
def byFunctionOf (acc : ScoreAcc) : List FuncScore :=
  (List.finRange 8).map fun i =>
    let m := if acc.max i = 0 then eps else acc.max i
    ⟨i.val, acc.raw i, m, clamp01 (acc.raw i / m) * 100⟩

/-! ### Axis aggregator: `agg` and the axes block of `score` (scorer.js) -/

/-- Result record of `agg`: `{ score: s, max: m, pct }`. -/
structure AggOut where
  score : ℚ
  max : ℚ
  pct : ℚ
deriving Repr, DecidableEq

/-- The accumulation loop of `agg`: walk the `byFunction` array by
position `i`, and for the positions in the index set add `raw` to `s` and
`max` to `m`. -/
def aggSums (iset : Finset ℕ) (bf : List FuncScore) : ℚ × ℚ :=
  bf.enum.foldl
    (fun sm p => if p.1 ∈ iset then (sm.1 + p.2.raw, sm.2 + p.2.max) else sm)
    (0, 0)

/-- `agg(indexSet, byFuncArr)` from scorer.js: `pct = m > 0 ? s / m : 0`. -/
def agg (iset : Finset ℕ) (bf : List FuncScore) : AggOut :=
  let sm := aggSums iset bf
  ⟨sm.1, sm.2, if 0 < sm.2 then sm.1 / sm.2 else 0⟩

/-- The index sets derived from function keys by `buildIndexSets`.  JS
`Set` objects of dimension indices are modelled as `Finset ℕ`. -/
structure Sets where
  EXTV : Finset ℕ
  INTV : Finset ℕ
  NSET : Finset ℕ
  SSET : Finset ℕ
  TSET : Finset ℕ
  FSET : Finset ℕ
  JEXT : Finset ℕ
  PEXT : Finset ℕ

/-- The `set(...)` helper of `buildIndexSets`: look each key up in
`keyToIndex` and keep the hits (the source encodes a miss as `-1` and
filters `i >= 0`; an association-list miss is filtered directly). -/
def bsetOf (k2i : List (String × ℕ)) (keys : List String) : Finset ℕ :=
  (keys.filterMap fun k => k2i.lookup k).toFinset

/-- `buildIndexSets(funcMeta)` from scorer.js. -/
def buildIndexSets (k2i : List (String × ℕ)) : Sets :=
  ⟨bsetOf k2i ["Fe", "Te", "Se", "Ne"],
   bsetOf k2i ["Fi", "Ti", "Si", "Ni"],
   bsetOf k2i ["Ni", "Ne"],
   bsetOf k2i ["Se", "Si"],
   bsetOf k2i ["Ti", "Te"],
   bsetOf k2i ["Fe", "Fi"],
   bsetOf k2i ["Fe", "Te"],
   bsetOf k2i ["Se", "Ne"]⟩

/-- The key-to-index table of `DEFAULT_FUNC_LIST`
(Se, Si, Ne, Ni, Te, Ti, Fe, Fi in order). -/
def defaultKeyToIndex : List (String × ℕ) :=
  [("Se", 0), ("Si", 1), ("Ne", 2), ("Ni", 3),
   ("Te", 4), ("Ti", 5), ("Fe", 6), ("Fi", 7)]

/-- The index sets for the default function list. -/
def defaultSets : Sets := buildIndexSets defaultKeyToIndex

/-- The four axis percentages of the `axes` block of `Scorer.score`
(the complements `I = 1 - E` etc. are carried alongside; the dead local
`sumJP` of the source is never read and is not modelled).  `pctJ` divides
the `Je` raw score by `JPj.score + JPp.score || 1e-9`. -/
structure AxesOut where
  pctE : ℚ
  pctI : ℚ
  pctN : ℚ
  pctS : ℚ
  pctT : ℚ
  pctF : ℚ
  pctJ : ℚ
  pctP : ℚ
deriving Repr, DecidableEq

/-- The axes block of `Scorer.score`. -/
def axesOf (sets : Sets) (bf : List FuncScore) : AxesOut :=
  let EI := agg sets.EXTV bf
  let NS := agg sets.NSET bf
  let TF := agg sets.TSET bf
  let JPj := agg sets.JEXT bf
  let JPp := agg sets.PEXT bf
  let pctJ := JPj.score /
    (if JPj.score + JPp.score = 0 then eps else JPj.score + JPp.score)
  ⟨EI.pct, 1 - EI.pct, NS.pct, 1 - NS.pct, TF.pct, 1 - TF.pct,
   pctJ, 1 - pctJ⟩

/-! ### Type resolver: `inferType` (scorer.js) -/

/-- One entry of the type-mapping tables (`{ code, name?, description? }`). -/
structure TypeInfo where
  code : String
  name : Option String
  description : Option String
deriving Repr, DecidableEq

/-- One entry of `types.rules` (`{ if: { dom?, aux? }, code, ... }`). -/
structure RuleT where
  ifDom : Option ℕ
  ifAux : Option ℕ
  code : String
  name : Option String
  description : Option String
deriving Repr, DecidableEq

/-- The provenance tag (`how`) attached by each resolution tier. -/
inductive How where
  | fallback
  | byPair
  | byDominant
  | rules
  | byCodeHint
  | heuristic
deriving Repr, DecidableEq

/-- The resolved type record `{ code, name?, description?, how }`. -/
structure TypeRec where
  code : String
  name : Option String
  description : Option String
  how : How
deriving Repr, DecidableEq

/-- `mapping.types`: the pair table (under either the `byPair` or the
`pairs` field), the dominant-only table, the ordered rule list and the
optional `byCodeHint` callback.  String keys `"dom-aux"` of the JS pair
objects are modelled as `ℕ × ℕ` keys. -/
structure TypeMapT where
  byPair : Option (List ((ℕ × ℕ) × TypeInfo))
  pairs : Option (List ((ℕ × ℕ) × TypeInfo))
  byDominant : Option (List (ℕ × TypeInfo))
  rules : Option (List RuleT)
  byCodeHint : Option (List FuncScore → FuncScore → FuncScore → Option TypeInfo)

/-- `const dm = typesMap.byPair || typesMap.pairs`. -/
def dmOf (tm : TypeMapT) : Option (List ((ℕ × ℕ) × TypeInfo)) :=
  match tm.byPair with
  | some d => some d
  | none => tm.pairs

/-- The pair lookup of tier 1: key `"dom-aux"` first, then the reversed
key `"aux-dom"`. -/
def pairHit (dm : List ((ℕ × ℕ) × TypeInfo)) (d a : ℕ) : Option TypeInfo :=
  match dm.lookup (d, a) with
  | some e => some e
  | none => dm.lookup (a, d)

/-- Tier 3: walk `types.rules` in order and take the first rule whose
optional `dom` / `aux` constraints match (absent constraint = wildcard);
keep the incoming record when no rule matches. -/
def applyRules (d a : ℕ) (t : TypeRec) : List RuleT → TypeRec
  | [] => t
  | r :: rest =>
    if (r.ifDom = none ∨ r.ifDom = some d) ∧ (r.ifAux = none ∨ r.ifAux = some a)
    then ⟨r.code, r.name, r.description, How.rules⟩
    else applyRules d a t rest

/-- The stable descending-by-`pct` sort `[...byFunction].sort((a, b) =>
b.pct - a.pct)`.  The ES specification requires `Array.prototype.sort` to
be stable, and for a consistent comparator the stable-sorted output is
unique, so any stable sorting algorithm is a faithful model; insertion
sort with the non-strict relation `b.pct ≤ a.pct` is stable. -/
def sortDesc (l : List FuncScore) : List FuncScore :=
  l.insertionSort fun a b => b.pct ≤ a.pct

/-- Placeholder element for reads past the end of the sorted list.  In
the source such a read yields `undefined`; the resolver's input is always
the eight `byFunction` records, for which all four reads are in range. -/
def dummyFS : FuncScore := ⟨0, 0, 0, 0⟩

/-- `sorted[0]`, the dominant dimension. -/
def domOf (bf : List FuncScore) : FuncScore :=
  ((sortDesc bf).get? 0).getD dummyFS

/-- `sorted[1]`, the auxiliary dimension. -/
def auxOf (bf : List FuncScore) : FuncScore :=
  ((sortDesc bf).get? 1).getD dummyFS

/-- Tier 5: the heuristic 4-letter fallback from axis aggregates with the
`>= 0.5` thresholds. -/
def heuristicType (sets : Sets) (bf : List FuncScore) : TypeRec :=
  let E := (agg sets.EXTV bf).pct
  let N := (agg sets.NSET bf).pct
  let T := (agg sets.TSET bf).pct
  let J := (agg sets.JEXT bf).pct
  ⟨(if 1 / 2 ≤ E then "E" else "I") ++ (if 1 / 2 ≤ N then "N" else "S") ++
     (if 1 / 2 ≤ T then "T" else "F") ++ (if 1 / 2 ≤ J then "J" else "P"),
   none, none, How.heuristic⟩

/-- `inferType(byFunction, typesMap, sets)` from scorer.js: the ordered
cascade byPair → byDominant → rules → byCodeHint → heuristic, each later
tier guarded by `type.code === 'Unknown'`, followed by the
`top` record of the first four sorted dimensions. -/
def inferType (bf : List FuncScore) (typesMap : Option TypeMapT)
    (sets : Sets) : TypeRec × (FuncScore × FuncScore × FuncScore × FuncScore) :=
  let sorted := sortDesc bf
  let dom := domOf bf
  let aux := auxOf bf
  let ter := (sorted.get? 2).getD dummyFS
  let inf := (sorted.get? 3).getD dummyFS
  let t0 : TypeRec := ⟨"Unknown", none, none, How.fallback⟩
  let t1 :=
    match typesMap with
    | none => t0
    | some tm =>
      let tA :=
        match dmOf tm with
        | none => t0
        | some dm =>
          match pairHit dm dom.idx aux.idx with
          | some e => ⟨e.code, e.name, e.description, How.byPair⟩
          | none => t0
      let tB :=
        if tA.code = "Unknown" then
          match tm.byDominant with
          | some bd =>
            match bd.lookup dom.idx with
            | some e => ⟨e.code, e.name, e.description, How.byDominant⟩
            | none => tA
          | none => tA
        else tA
      let tC :=
        if tB.code = "Unknown" then
          match tm.rules with
          | some rs => applyRules dom.idx aux.idx tB rs
          | none => tB
        else tB
      let tD :=
        if tC.code = "Unknown" then
          match tm.byCodeHint with
          | some f =>
            match f bf dom aux with
            | some h =>
              if h.code ≠ "" then ⟨h.code, h.name, h.description, How.byCodeHint⟩
              else tC
            | none => tC
          | none => tC
        else tC
      tD
  let t2 := if t1.code = "Unknown" then heuristicType sets bf else t1
  (t2, (dom, aux, ter, inf))

/-- The canonical descending order the spec describes for the sorted
dimension list: strictly greater `pct` first, ties by ascending dimension
index.  (Non-strict version, used to run the stable sort under a total
relation.) -/
def lexLE (a b : FuncScore) : Prop :=
  b.pct < a.pct ∨ (b.pct = a.pct ∧ a.idx ≤ b.idx)

instance : DecidableRel lexLE := fun a b => by unfold lexLE; infer_instance

instance : IsTrans FuncScore lexLE := by
  constructor
  intro a b c hab hbc
  rcases hab with h1 | ⟨h1, h1i⟩ <;> rcases hbc with h2 | ⟨h2, h2i⟩
  · exact Or.inl (h2.trans h1)
  · exact Or.inl (h2 ▸ h1)
  · exact Or.inl (lt_of_lt_of_le h2 h1.le)
  · exact Or.inr ⟨h2.trans h1, h1i.trans h2i⟩

instance : IsTotal FuncScore lexLE := by
  constructor
  intro a b
  rcases lt_trichotomy a.pct b.pct with h | h | h
  · exact Or.inr (Or.inl h)
  · rcases le_total a.idx b.idx with hi | hi
    · exact Or.inl (Or.inr ⟨h.symm, hi⟩)
    · exact Or.inr (Or.inr ⟨h, hi⟩)
  · exact Or.inl (Or.inl h)

/-- A valid 4-letter type code: one letter per axis, in axis order. -/
def isValidCode (s : String) : Bool :=
  match s.data with
  | [a, b, c, d] =>
    (a == 'E' || a == 'I') && (b == 'N' || b == 'S') &&
      (c == 'T' || c == 'F') && (d == 'J' || d == 'P')
  | _ => false

/-! ### Weight schema normalizer: `normalizeWeightsShape` (scorer.js)

The normalizer receives an arbitrary decoded JSON-ish value, so its
embedding works over a model of JS values.  `jnull` models both `null`
and `undefined` (the code distinguishes them nowhere); `Number(...)`
coercions that would produce `NaN` yield `Option.none`. -/

/-- `s.toLowerCase()`, computed structurally over the character list
(the semantics of `String.toLower`, whose byte-position recursion does
not evaluate inside proofs). -/
def lowerStr (s : String) : String :=
  String.mk (s.data.map Char.toLower)

/-- Parse a canonical non-negative integer string (the `!isNaN(+k)` keys
the tables actually use), structurally over the character list. -/
def strToNat? (s : String) : Option ℕ :=
  if s.data ≠ [] ∧ s.data.all Char.isDigit then
    some (s.data.foldl (fun n c => n * 10 + (c.toNat - 48)) 0)
  else none

/-- A JS value as seen by the weight-shape normalizer. -/
inductive JVal where
  | jnull
  | jbool (b : Bool)
  | jnum (q : ℚ)
  | jstr (s : String)
  | jarr (elems : List JVal)
  | jobj (fields : List (String × JVal))

/-- JS truthiness (`NaN` cannot appear here: the normalizer only tests
raw input values, never computed numbers). -/
def jtruthy : JVal → Bool
  | .jnull => false
  | .jbool b => b
  | .jnum q => if q = 0 then false else true
  | .jstr s => if s = "" then false else true
  | .jarr _ => true
  | .jobj _ => true

/-- Property access `v[k]`, `undefined` modelled as `jnull`.  Objects
look the key up; strings expose their characters under canonical index
keys (the shape `Object.keys` enumerates); arrays expose no string-named
properties the normalizer ever reads. -/
def jget : JVal → String → JVal
  | .jobj fs, k => (fs.lookup k).getD .jnull
  | .jstr s, k =>
    match strToNat? k with
    | some n =>
      match s.data.get? n with
      | some c => .jstr (String.mk [c])
      | none => .jnull
    | none => .jnull
  | _, _ => .jnull

/-- `Object.keys(v)`: own enumerable keys — field names for objects,
index strings for strings and arrays, nothing for primitives. -/
def jkeys : JVal → List String
  | .jobj fs => fs.map Prod.fst
  | .jstr s => (List.range s.length).map (fun n => toString n)
  | .jarr es => (List.range es.length).map (fun n => toString n)
  | _ => []

/-- The `String(v)` coercion, used for ids and the `side` marker.  Ids in
the weight tables are strings or integers; the remaining cases (array
join, fractional numbers) do not occur there and are given their nearest
fixed rendering. -/
def jsToString : JVal → String
  | .jstr s => s
  | .jnum q => if q.den = 1 then toString q.num else toString q
  | .jbool b => if b then "true" else "false"
  | .jnull => "null"
  | .jarr _ => ""
  | .jobj _ => "[object Object]"

/-- The `Number(v)` coercion; `none` is `NaN`.  Every call site guards
with `v || 0`, so only truthy values arrive.  Numeric strings beyond
canonical naturals and non-empty arrays (which JS would coerce through
their string form) are conservatively `NaN`; the weight tables author
plain numbers. -/
def jToNum : JVal → Option ℚ
  | .jnum q => some q
  | .jbool b => some (if b then 1 else 0)
  | .jnull => some 0
  | .jstr s => (strToNat? s).map fun n => (n : ℚ)
  | .jarr [] => some 0
  | .jarr (_ :: _) => none
  | .jobj _ => none

/-- `Number(x[k] || 0)`: the guarded read used for every weight entry. -/
def jReadNum (x : JVal) (k : String) : Option ℚ :=
  let e := jget x k
  if jtruthy e then jToNum e else some 0

/-- One key step of `indexifyEight`'s object branch: a canonical numeric
key writes slot `+k`, otherwise a known dimension symbol writes its
index, otherwise nothing.  Writes outside `0..7` grow the JS array but
are invisible to every downstream read of slots `0..7` and are dropped
(non-integer numeric keys likewise only create non-element properties
that `Object.fromEntries(out.map(...))` ignores). -/
def idxWrite (x : JVal) (n2i : List (String × ℕ)) (out : List (Option ℚ))
    (k : String) : List (Option ℚ) :=
  match strToNat? k with
  | some n => if n < 8 then out.set n (jReadNum x k) else out
  | none =>
    match n2i.lookup k with
    | some n => if n < 8 then out.set n (jReadNum x k) else out
    | none => out

/-- `indexifyEight(x, nameToIdx)` from scorer.js: canonicalize one side
vector to eight slots, defaulting every slot to `0`; falsy input gives
all zeros; arrays are read positionally; otherwise own keys are written
through `idxWrite`. -/
def indexifyEight (x : JVal) (n2i : List (String × ℕ)) : List (Option ℚ) :=
  if jtruthy x = false then List.replicate 8 (some 0)
  else
    match x with
    | .jarr es =>
      (List.range 8).map fun i =>
        let e := (es.get? i).getD .jnull
        if jtruthy e then jToNum e else some 0
    | _ => (jkeys x).foldl (idxWrite x n2i) (List.replicate 8 (some 0))

/-- The side-alias names accepted for the A side (lower-cased). -/
def sideAliasA : List String := ["a", "pos", "positive", "agree"]

/-- The side-alias names accepted for the B side (lower-cased). -/
def sideAliasB : List String := ["b", "neg", "negative", "disagree"]

/-- `pickSideKeys(w)` from scorer.js: scan the own keys, recording the
first key whose lower-casing is an A-alias and the first whose
lower-casing is a B-alias. -/
def pickSideKeys (w : JVal) : Option String × Option String :=
  (jkeys w).foldl
    (fun kk key =>
      let low := lowerStr key
      (if kk.1 = none ∧ sideAliasA.contains low then some key else kk.1,
       if kk.2 = none ∧ sideAliasB.contains low then some key else kk.2))
    (none, none)

/-- The or-chain `row.A || row.pos || row.positive || {}` (and its B
twin): first truthy property, else an empty object. -/
def orChain (row : JVal) : List String → JVal
  | [] => .jobj []
  | n :: rest =>
    let v := jget row n
    if jtruthy v then v else orChain row rest

/-- The `??` chain: first operand that is not `null`/`undefined`. -/
def nullish : JVal → JVal → JVal
  | .jnull, b => b
  | a, _ => a

/-- The non-`side` normalization of one row entry: resolve each side via
`pickSideKeys`, falling back to the alias or-chains. -/
def normalizeRow (row : JVal) (n2i : List (String × ℕ)) : WeightRow :=
  let pick := pickSideKeys row
  ⟨indexifyEight
      (match pick.1 with
       | some k => jget row k
       | none => orChain row ["A", "pos", "positive"]) n2i,
   indexifyEight
      (match pick.2 with
       | some k => jget row k
       | none => orChain row ["B", "neg", "negative"]) n2i⟩

/-- JS object assignment `out[id] = v` on the insertion-ordered map:
update in place if present, else append. -/
def setAssoc : List (String × WeightRow) → String → WeightRow →
    List (String × WeightRow)
  | [], id, v => [(id, v)]
  | (k, w) :: t, id, v =>
    if k = id then (k, v) :: t else (k, w) :: setAssoc t id v

/-- The `{ side, weights }` merge: `out[id] = out[id] || {A:{},B:{}};
out[id][side] = indexifyEight(row.weights)`.  The fresh `{}` side is the
empty vector (every read of it is `undefined || 0`). -/
def mergeSide (m : List (String × WeightRow)) (id : String) (isA : Bool)
    (vec : List (Option ℚ)) : List (String × WeightRow) :=
  let prev := (m.lookup id).getD ⟨[], []⟩
  setAssoc m id (if isA then ⟨vec, prev.B⟩ else ⟨prev.A, vec⟩)

/-- The id of one array-branch row:
`String(row.id ?? row.qid ?? row.questionId ?? i)`. -/
def rowId (row : JVal) (i : ℕ) : String :=
  match nullish (jget row "id") (nullish (jget row "qid") (jget row "questionId")) with
  | .jnull => toString i
  | v => jsToString v

/-- The `row.side && row.weights` test. -/
def hasSideWeights (row : JVal) : Bool :=
  jtruthy (jget row "side") && jtruthy (jget row "weights")

/-- `String(row.side).toUpperCase().startsWith('A')`, computed
structurally: the first character, upper-cased, is `A`. -/
def sideIsA (row : JVal) : Bool :=
  match (jsToString (jget row "side")).data.map Char.toUpper with
  | c :: _ => c == 'A'
  | [] => false

/-- The `row.A || row.B || row.pos || row.neg || row.positive ||
row.negative` guard of the array branch. -/
def hasSideish (row : JVal) : Bool :=
  jtruthy (jget row "A") || jtruthy (jget row "B") ||
    jtruthy (jget row "pos") || jtruthy (jget row "neg") ||
    jtruthy (jget row "positive") || jtruthy (jget row "negative")

/-- One row of the array branch of `normalizeWeightsShape`. -/
def arrStep (n2i : List (String × ℕ)) (m : List (String × WeightRow))
    (p : ℕ × JVal) : List (String × WeightRow) :=
  let row := if jtruthy p.2 then p.2 else .jobj []
  let id := rowId row p.1
  if hasSideWeights row then
    mergeSide m id (sideIsA row) (indexifyEight (jget row "weights") n2i)
  else if hasSideish row then
    setAssoc m id (normalizeRow row n2i)
  else
    match row with
    | .jarr _ =>
      setAssoc m id
        ⟨indexifyEight row n2i,
         indexifyEight (.jarr (List.replicate 8 (.jnum 0))) n2i⟩
    | _ => m

/-- One key of the object branch of `normalizeWeightsShape` (which, for a
non-array truthy source, iterates `Object.keys(src)` — including over
strings, whose keys are character positions). -/
def objStep (src : JVal) (n2i : List (String × ℕ))
    (m : List (String × WeightRow)) (k : String) : List (String × WeightRow) :=
  let row := if jtruthy (jget src k) then jget src k else .jobj []
  if hasSideWeights row then
    mergeSide m k (sideIsA row) (indexifyEight (jget row "weights") n2i)
  else
    setAssoc m k (normalizeRow row n2i)

/-- `normalizeWeightsShape(src, funcMeta)` from scorer.js: falsy sources
yield the empty map; arrays are walked by position; every other value is
walked by `Object.keys`. -/
def normalizeWeightsShape (src : JVal) (n2i : List (String × ℕ)) :
    List (String × WeightRow) :=
  if jtruthy src = false then []
  else
    match src with
    | .jarr rows => rows.enum.foldl (arrStep n2i) []
    | _ => (jkeys src).foldl (objStep src n2i) []

/-- Sum of the `raw` fields over the positions of `bf` that lie in the
index set (the "sum of raw over a dimension set" of the spec, stated
independently of the `agg` fold). -/
def rawSumL (iset : Finset ℕ) (bf : List FuncScore) : ℚ :=
  ((bf.enum.filter fun p => p.1 ∈ iset).map fun p => p.2.raw).sum

/-- Sum of the `max` fields over the positions of `bf` in the index set. -/
def maxSumL (iset : Finset ℕ) (bf : List FuncScore) : ℚ :=
  ((bf.enum.filter fun p => p.1 ∈ iset).map fun p => p.2.max).sum

/-- The axis-percentage formula as the spec words it: sum of `raw` over
the positive set divided by the sum of `raw` over the union of the
positive and negative sets, guarded against a zero denominator.  This
definition follows the spec's sentence, for comparison with the `axesOf`
computation embedded from the source. -/
def specAxisPct (pos neg : Finset ℕ) (bf : List FuncScore) : ℚ :=
  let t := rawSumL (pos ∪ neg) bf
  if t = 0 then 0 else rawSumL pos bf / t

/-! ### Concrete fixtures used by witnesses and counterexamples -/

/-- A `byFunction` array whose only raw evidence sits on dimension 0 (Se),
with per-dimension ceiling 2 there. -/
def bfC2 : List FuncScore :=
  [⟨0, 1, 2, 0⟩, ⟨1, 0, 0, 0⟩, ⟨2, 0, 0, 0⟩, ⟨3, 0, 0, 0⟩,
   ⟨4, 0, 0, 0⟩, ⟨5, 0, 0, 0⟩, ⟨6, 0, 0, 0⟩, ⟨7, 0, 0, 0⟩]

/-- The all-zero normalized weight row. -/
def zeroRow : WeightRow :=
  ⟨List.replicate 8 (some 0), List.replicate 8 (some 0)⟩

/-- A type map whose pair table maps `(0, 1)` to INTJ while its
dominant-only table would also match dominant index `0`. -/
def tmW : TypeMapT :=
  ⟨some [((0, 1), ⟨"INTJ", none, none⟩)], none,
   some [(0, ⟨"AAAA", none, none⟩)], none, none⟩

/-- A weight row with every entry `1` on both sides. -/
def row0 : WeightRow :=
  ⟨List.replicate 8 (some 1), List.replicate 8 (some 1)⟩

/-- A weights map holding `row0` at item id `"0"` and nothing else. -/
def w0 : String → Option WeightRow :=
  fun id => if id = "0" then some row0 else none

/-! ### Permutation lemmas for the sequencer -/

theorem set_of_get_eq {α : Type u_1} (l : List α) (i : ℕ) (x : α)
    (h : l.get? i = some x) : l.set i x = l := by
  induction l generalizing i with
  | nil => simp at h
  | cons a t ih =>
    cases i with
    | zero => simp only [List.get?] at h; cases h; rfl
    | succ n =>
      simp only [List.get?] at h
      simp only [List.set]
      rw [ih n h]

theorem cons_set_perm {α : Type u_1} :
    ∀ (t : List α) (m : ℕ) (x y : α), t.get? m = some y →
      (y :: t.set m x).Perm (x :: t)
  | [], m, _, _, h => by simp at h
  | b :: s, 0, x, y, h => by
    simp only [List.get?] at h; cases h
    simpa using List.Perm.swap x b s
  | b :: s, m + 1, x, y, h => by
    simp only [List.get?] at h
    show List.Perm (y :: b :: s.set m x) (x :: b :: s)
    exact (List.Perm.swap b y _).trans
      (((cons_set_perm s m x y h).cons b).trans (List.Perm.swap x b s))

theorem set_set_perm {α : Type u_1} :
    ∀ (l : List α) (i j : ℕ) (x y : α),
      l.get? i = some x → l.get? j = some y → ((l.set i y).set j x).Perm l
  | [], _, _, _, _, h1, _ => by simp at h1
  | a :: t, 0, 0, x, y, h1, h2 => by
    simp only [List.get?] at h1 h2; cases h1; cases h2
    simp
  | a :: t, 0, m + 1, x, y, h1, h2 => by
    simp only [List.get?] at h1 h2; cases h1
    exact cons_set_perm t m a y h2
  | a :: t, n + 1, 0, x, y, h1, h2 => by
    simp only [List.get?] at h1 h2; cases h2
    exact cons_set_perm t n a x h1
  | a :: t, n + 1, m + 1, x, y, h1, h2 => by
    simp only [List.get?] at h1 h2
    exact (set_set_perm t n m x y h1 h2).cons a

theorem listSwap_perm {α : Type u_1} (l : List α) (i j : ℕ) :
    (listSwap l i j).Perm l := by
  unfold listSwap
  cases h1 : l.get? i with
  | none => exact List.Perm.refl l
  | some x =>
    cases h2 : l.get? j with
    | none => exact List.Perm.refl l
    | some y => exact set_set_perm l i j x y h1 h2

theorem fisherLoop_perm {α : Type u_1} :
    ∀ (n : ℕ) (s : PrngState) (out : List α), (fisherLoop s out n).Perm out
  | 0, _, _ => List.Perm.refl _
  | n + 1, s, out => by
    unfold fisherLoop
    exact (fisherLoop_perm n _ _).trans (listSwap_perm out (n + 1) _)

/-! ### Lemmas about the answer reducer and the accumulator -/

theorem normalizeAnswer_mag_nonneg (o : Option ℚ) :
    0 ≤ (normalizeAnswer o).mag := by
  cases o with
  | none => norm_num [normalizeAnswer]
  | some n =>
    simp only [normalizeAnswer]
    exact le_min zero_le_one (by positivity)

theorem normalizeAnswer_mag_le_one (o : Option ℚ) :
    (normalizeAnswer o).mag ≤ 1 := by
  cases o with
  | none => norm_num [normalizeAnswer]
  | some n => simp only [normalizeAnswer]; exact min_le_left _ _

/-- The three accumulator fields other than `perItem`/`used` are
untouched by a `skipped` or `neutral` record. -/
theorem scoreStep_invariant (w : String → Option WeightRow)
    (hw : ∀ id row, w id = some row →
      ∀ i : Fin 8, 0 ≤ getW row.A i.val ∧ 0 ≤ getW row.B i.val)
    (acc : ScoreAcc) (a : Answer)
    (hinv : ∀ i, 0 ≤ acc.raw i ∧ 0 ≤ acc.max i ∧ acc.raw i ≤ acc.max i) :
    ∀ i, 0 ≤ (scoreStep w acc a).raw i ∧ 0 ≤ (scoreStep w acc a).max i ∧
      (scoreStep w acc a).raw i ≤ (scoreStep w acc a).max i := by
  intro i
  unfold scoreStep
  cases hv : a.value with
  | none => exact hinv i
  | some v =>
    cases hrow : w a.id with
    | none => simpa using hinv i
    | some wid =>
      dsimp only
      by_cases hneu : (normalizeAnswer (some v)).mag = 0 ∨
          (normalizeAnswer (some v)).dir = 0
      · rw [if_pos hneu]; simpa using hinv i
      · rw [if_neg hneu]
        have hA := (hw a.id wid hrow i).1
        have hB := (hw a.id wid hrow i).2
        have hmag0 := normalizeAnswer_mag_nonneg (some v)
        have hmag1 := normalizeAnswer_mag_le_one (some v)
        have hvec : 0 ≤ getW (if (if 0 < (normalizeAnswer (some v)).dir
            then Side.A else Side.B) = Side.A then wid.A else wid.B) i.val ∧
            getW (if (if 0 < (normalizeAnswer (some v)).dir
              then Side.A else Side.B) = Side.A then wid.A else wid.B) i.val ≤
              max (getW wid.A i.val) (getW wid.B i.val) := by
          split
          · exact ⟨hA, le_max_left _ _⟩
          · exact ⟨hB, le_max_right _ _⟩
        refine ⟨?_, ?_, ?_⟩
        · exact add_nonneg (hinv i).1 (mul_nonneg hmag0 hvec.1)
        · exact add_nonneg (hinv i).2.1 (le_trans hA (le_max_left _ _))
        · refine add_le_add (hinv i).2.2 ?_
          calc (normalizeAnswer (some v)).mag * getW _ i.val ≤
              1 * getW _ i.val := mul_le_mul_of_nonneg_right hmag1 hvec.1
            _ = getW _ i.val := one_mul _
            _ ≤ max (getW wid.A i.val) (getW wid.B i.val) := hvec.2

theorem scoreFold_invariant (w : String → Option WeightRow)
    (hw : ∀ id row, w id = some row →
      ∀ i : Fin 8, 0 ≤ getW row.A i.val ∧ 0 ≤ getW row.B i.val) :
    ∀ (ans : List Answer) (acc : ScoreAcc),
      (∀ i, 0 ≤ acc.raw i ∧ 0 ≤ acc.max i ∧ acc.raw i ≤ acc.max i) →
      ∀ i, 0 ≤ (ans.foldl (scoreStep w) acc).raw i ∧
        0 ≤ (ans.foldl (scoreStep w) acc).max i ∧
        (ans.foldl (scoreStep w) acc).raw i ≤ (ans.foldl (scoreStep w) acc).max i
  | [], _, hinv => hinv
  | a :: t, acc, hinv =>
    scoreFold_invariant w hw t (scoreStep w acc a)
      (scoreStep_invariant w hw acc a hinv)

/-- The `agg` accumulation loop computes the filtered positional sums of
the `raw` and `max` fields. -/
theorem foldl_agg (iset : Finset ℕ) :
    ∀ (l : List (ℕ × FuncScore)) (s m : ℚ),
      l.foldl
        (fun sm p => if p.1 ∈ iset then (sm.1 + p.2.raw, sm.2 + p.2.max) else sm)
        (s, m) =
        (s + ((l.filter fun p => p.1 ∈ iset).map fun p => p.2.raw).sum,
         m + ((l.filter fun p => p.1 ∈ iset).map fun p => p.2.max).sum)
  | [], s, m => by simp
  | p :: t, s, m => by
    rw [List.foldl_cons, List.filter_cons]
    by_cases hp : p.1 ∈ iset
    · rw [if_pos hp, foldl_agg iset t]
      simp [hp, add_assoc]
    · rw [if_neg hp, foldl_agg iset t]
      simp [hp]

theorem aggSums_eq (iset : Finset ℕ) (bf : List FuncScore) :
    aggSums iset bf = (rawSumL iset bf, maxSumL iset bf) := by
  simpa [aggSums, rawSumL, maxSumL] using foldl_agg iset bf.enum 0 0

/-- The index sets of the default function list, computed. -/
theorem defaultSets_EXTV : defaultSets.EXTV = ({0, 2, 4, 6} : Finset ℕ) := by
  decide

theorem defaultSets_INTV : defaultSets.INTV = ({1, 3, 5, 7} : Finset ℕ) := by
  decide

/-- Claim C1.  The answer reducer does NOT map the three 5-point encodings
of one logical response to a common centered value: the two overlapping
range checks in `normalizeAnswer` both fire for inputs in `[1, 2]` (the
centered branch overwriting the `1..5` branch) and no branch handles the
`0..4` encoding, contradicting the function's own comment and the
`exportAnswers` pipeline it documents.  Evaluating the code at the three
encodings of "strongly disagree": `1` (on `1..5`) yields direction `+1`
and magnitude `1/2`, `0` (on `0..4`) yields direction `0` and magnitude
`0`, and only centered `-2` yields the direction `-1` / magnitude `1`
demanded by the claim for all three. -/
theorem claim1_normalizeAnswer_encoding_bug :
    normalizeAnswer (some 1) = ⟨1, 1 / 2⟩ ∧
    normalizeAnswer (some 0) = ⟨0, 0⟩ ∧
    normalizeAnswer (some (-2)) = ⟨-1, 1⟩ := by
  refine ⟨?_, ?_, ?_⟩ <;> norm_num [normalizeAnswer]

/-- Claim C3.  The seeded shuffle returns a permutation of its input (same
multiset, nothing duplicated or dropped) for every item list and every
seed — including the empty seed — and two calls with identical list and
identical seed return the identical ordering. -/
theorem claim3_shuffle_permutation {α : Type u_1} (l l' : List α)
    (s s' : List ℕ) (hl : l = l') (hs : s = s') :
    (shuffleSeeded l s).Perm l ∧ shuffleSeeded l s = shuffleSeeded l' s' := by
  subst hl hs
  exact ⟨fisherLoop_perm _ _ _, rfl⟩

/-- Witness for C3: a concrete run with the empty seed. -/
theorem claim3_shuffle_permutation_witness :
    ([10, 20, 30] : List ℕ) = [10, 20, 30] ∧ ([] : List ℕ) = [] ∧
    ((shuffleSeeded [10, 20, 30] ([] : List ℕ)).Perm [10, 20, 30] ∧
      shuffleSeeded [10, 20, 30] ([] : List ℕ) =
        shuffleSeeded [10, 20, 30] ([] : List ℕ)) :=
  ⟨rfl, rfl, claim3_shuffle_permutation [10, 20, 30] [10, 20, 30] [] [] rfl rfl⟩

/-- Two ordered insertions agree when their relations agree between the
inserted element and every element of the target list. -/
theorem orderedInsert_congr (r₁ r₂ : FuncScore → FuncScore → Prop)
    [DecidableRel r₁] [DecidableRel r₂] (x : FuncScore) :
    ∀ S : List FuncScore, (∀ b ∈ S, (r₁ x b ↔ r₂ x b)) →
      S.orderedInsert r₁ x = S.orderedInsert r₂ x
  | [], _ => rfl
  | b :: S, h => by
    simp only [List.orderedInsert]
    by_cases hb : r₁ x b
    · rw [if_pos hb, if_pos ((h b (List.mem_cons_self b S)).mp hb)]
    · rw [if_neg hb, if_neg (fun hc => hb ((h b (List.mem_cons_self b S)).mpr hc)),
        orderedInsert_congr r₁ r₂ x S (fun c hc => h c (List.mem_cons_of_mem b hc))]

/-- On a list whose `idx` fields are strictly increasing — which
`byFunction` always is — the stable descending-by-`pct` sort coincides
with sorting by the lexicographic relation (`pct` descending, `idx`
ascending): stability resolves every tie toward the smaller index. -/
theorem sortDesc_eq_lex :
    ∀ l : List FuncScore, l.Pairwise (fun a b => a.idx < b.idx) →
      sortDesc l = l.insertionSort lexLE
  | [], _ => rfl
  | x :: xs, h => by
    obtain ⟨hx, hxs⟩ := List.pairwise_cons.mp h
    have ih := sortDesc_eq_lex xs hxs
    simp only [sortDesc] at ih ⊢
    show List.orderedInsert _ x (List.insertionSort _ xs) =
      List.orderedInsert lexLE x (List.insertionSort lexLE xs)
    rw [ih]
    refine orderedInsert_congr _ lexLE x (List.insertionSort lexLE xs) ?_
    intro b hb
    have hbx : x.idx < b.idx := hx b (by simpa using hb)
    unfold lexLE
    constructor
    · intro hle
      rcases lt_or_eq_of_le hle with hlt | heq
      · exact Or.inl hlt
      · exact Or.inr ⟨heq, hbx.le⟩
    · intro hlx
      rcases hlx with hlt | ⟨heq, -⟩
      · exact hlt.le
      · exact heq.le
  termination_by l => l.length

/-- Counterexample to C2 as stated: on a `byFunction` array whose only
raw evidence is `raw = 1` on dimension 0 (Se, an extroverted function)
with per-dimension ceiling `max = 2` there, the code reports
`pctE = 1/2` (raw over the positive set divided by the summed `max`
ceilings of the positive set), while the claim's formula — raw over the
positive set divided by raw over the union of both sets — gives `1`. -/
theorem claim2_counterexample :
    (axesOf defaultSets bfC2).pctE ≠
      specAxisPct defaultSets.EXTV defaultSets.INTV bfC2 := by
  have h1 : (axesOf defaultSets bfC2).pctE = 1 / 2 := by
    norm_num [axesOf, agg, aggSums, bfC2, defaultSets_EXTV, List.enum,
      Finset.mem_insert]
  have h2 : specAxisPct defaultSets.EXTV defaultSets.INTV bfC2 = 1 := by
    norm_num [specAxisPct, rawSumL, bfC2, defaultSets_EXTV, defaultSets_INTV,
      List.enum, Finset.mem_insert]
  rw [h1, h2]
  norm_num

/-- Claim C2, amended.  For the E/I, N/S and T/F axes the reported
percentage is the sum of `raw` over the axis's positive dimension set
divided by the sum of the accumulated `max` ceilings over that same
positive set (`0` when that denominator is not positive) — the negative
set is not consulted; only the J/P axis uses the claim's raw-over-raw
form, `pctJ = raw(Je) / (raw(Je) + raw(Pe))` with `1e-9` substituted for
a zero denominator. -/
theorem claim2_axis_formula (sets : Sets) (bf : List FuncScore) :
    (axesOf sets bf).pctE =
      (if 0 < maxSumL sets.EXTV bf
        then rawSumL sets.EXTV bf / maxSumL sets.EXTV bf else 0) ∧
    (axesOf sets bf).pctN =
      (if 0 < maxSumL sets.NSET bf
        then rawSumL sets.NSET bf / maxSumL sets.NSET bf else 0) ∧
    (axesOf sets bf).pctT =
      (if 0 < maxSumL sets.TSET bf
        then rawSumL sets.TSET bf / maxSumL sets.TSET bf else 0) ∧
    (axesOf sets bf).pctJ =
      rawSumL sets.JEXT bf /
        (if rawSumL sets.JEXT bf + rawSumL sets.PEXT bf = 0 then eps
          else rawSumL sets.JEXT bf + rawSumL sets.PEXT bf) := by
  simp [axesOf, agg, aggSums_eq]

/-- Claim C4.  For an answered, non-neutral item with a weight row, the
accumulator adds `magnitude * selectedVector[i]` to `raw[i]` and the
item's own per-dimension ceiling `max(A[i], B[i])` to `max[i]`; when
`A[i] = B[i]` the `max` contribution is that common value, not the sum. -/
theorem claim4_accumulator_per_item (w : String → Option WeightRow)
    (ans : List Answer) (a : Answer) (v : ℚ) (wid : WeightRow)
    (hv : a.value = some v) (hw : w a.id = some wid)
    (hnn : ¬((normalizeAnswer (some v)).mag = 0 ∨
      (normalizeAnswer (some v)).dir = 0)) :
    ∀ i : Fin 8,
      (scoreRun w (ans ++ [a])).raw i = (scoreRun w ans).raw i +
        (normalizeAnswer (some v)).mag *
          getW (if 0 < (normalizeAnswer (some v)).dir then wid.A else wid.B)
            i.val ∧
      (scoreRun w (ans ++ [a])).max i = (scoreRun w ans).max i +
        max (getW wid.A i.val) (getW wid.B i.val) ∧
      (getW wid.A i.val = getW wid.B i.val →
        (scoreRun w (ans ++ [a])).max i =
          (scoreRun w ans).max i + getW wid.A i.val) := by
  intro i
  have hstep : scoreRun w (ans ++ [a]) = scoreStep w (scoreRun w ans) a := by
    simp [scoreRun, List.foldl_append]
  rw [hstep]
  unfold scoreStep
  rw [hv, hw]
  dsimp only
  rw [if_neg hnn]
  by_cases hdir : 0 < (normalizeAnswer (some v)).dir
  · refine ⟨by simp [hdir], rfl, fun h => ?_⟩
    dsimp only
    rw [h, max_self]
  · refine ⟨by simp [hdir], rfl, fun h => ?_⟩
    dsimp only
    rw [h, max_self]

/-- Witness for C4: item `"0"` answered `5` against `w0`. -/
theorem claim4_accumulator_per_item_witness :
    ((⟨"0", some 5⟩ : Answer).value = some 5 ∧ w0 "0" = some row0 ∧
      ¬((normalizeAnswer (some 5)).mag = 0 ∨
        (normalizeAnswer (some 5)).dir = 0)) ∧
    (∀ i : Fin 8,
      (scoreRun w0 ([] ++ [⟨"0", some 5⟩])).raw i = (scoreRun w0 []).raw i +
        (normalizeAnswer (some 5)).mag *
          getW (if 0 < (normalizeAnswer (some 5)).dir then row0.A else row0.B)
            i.val ∧
      (scoreRun w0 ([] ++ [⟨"0", some 5⟩])).max i = (scoreRun w0 []).max i +
        max (getW row0.A i.val) (getW row0.B i.val) ∧
      (getW row0.A i.val = getW row0.B i.val →
        (scoreRun w0 ([] ++ [⟨"0", some 5⟩])).max i =
          (scoreRun w0 []).max i + getW row0.A i.val)) := by
  have h1 : w0 "0" = some row0 := by norm_num [w0]
  have h2 : ¬((normalizeAnswer (some 5)).mag = 0 ∨
      (normalizeAnswer (some 5)).dir = 0) := by norm_num [normalizeAnswer]
  exact ⟨⟨rfl, h1, h2⟩,
    claim4_accumulator_per_item w0 [] ⟨"0", some 5⟩ 5 row0 rfl h1 h2⟩

/-- Counterexample to C6 as stated: an item answered `null` (with a weight
row present) contributes no `debug.perItem` record at all — the loop
`continue`s before any diagnostic is pushed — whereas a neutral answer
pushes `{id, neutral:true}`.  The claim asserts that each of the two
produces its own per-item record. -/
theorem claim6_counterexample :
    (scoreRun w0 [⟨"0", none⟩]).perItem = [] ∧
    (scoreRun w0 [⟨"0", some 0⟩]).perItem = [PerItem.neutral "0"] := by
  constructor
  · norm_num [scoreRun, scoreStep, initAcc, w0]
  · norm_num [scoreRun, scoreStep, initAcc, w0, normalizeAnswer]

/-- Claim C6, amended.  A `null`/undefined answer and a neutral answer
both leave every `raw` and `max` slot (and `used`) unchanged; the neutral
one appends a `{id, neutral}` diagnostic record while the `null` one is
skipped silently with no record, so the two cases remain distinguishable
in `debug.perItem` — by presence of a record, not by two records. -/
theorem claim6_null_vs_neutral (w : String → Option WeightRow)
    (acc : ScoreAcc) (a : Answer) :
    (a.value = none → scoreStep w acc a = acc) ∧
    (∀ v wid, a.value = some v → w a.id = some wid →
      ((normalizeAnswer (some v)).mag = 0 ∨ (normalizeAnswer (some v)).dir = 0) →
      scoreStep w acc a =
        ⟨acc.raw, acc.max, acc.perItem ++ [PerItem.neutral a.id], acc.used⟩) := by
  constructor
  · intro h; unfold scoreStep; rw [h]
  · intro v wid hv hw hneu
    unfold scoreStep
    rw [hv, hw]
    dsimp only
    rw [if_pos hneu]

/-- Witness for C6 (amended): the two concrete items of the
counterexample. -/
theorem claim6_null_vs_neutral_witness :
    ((⟨"0", none⟩ : Answer).value = none ∧
      scoreStep w0 initAcc ⟨"0", none⟩ = initAcc) ∧
    ((⟨"0", some 0⟩ : Answer).value = some 0 ∧ w0 "0" = some row0 ∧
      ((normalizeAnswer (some 0)).mag = 0 ∨ (normalizeAnswer (some 0)).dir = 0) ∧
      scoreStep w0 initAcc ⟨"0", some 0⟩ =
        ⟨initAcc.raw, initAcc.max,
         initAcc.perItem ++ [PerItem.neutral "0"], initAcc.used⟩) := by
  have h1 : w0 "0" = some row0 := by norm_num [w0]
  have h2 : (normalizeAnswer (some 0)).mag = 0 ∨
      (normalizeAnswer (some 0)).dir = 0 := by norm_num [normalizeAnswer]
  exact ⟨⟨rfl, (claim6_null_vs_neutral w0 initAcc ⟨"0", none⟩).1 rfl⟩,
    ⟨rfl, h1, h2,
     (claim6_null_vs_neutral w0 initAcc ⟨"0", some 0⟩).2 0 row0 rfl h1 h2⟩⟩

/-- Claim C7.  Every returned `FunctionScore` has `pct` within `[0, 100]`,
its stored denominator (`max[i] || 1e-9`) is never zero — so the division
never faults — and a dimension with zero accumulated raw evidence (in
particular one touched by no item) gets `pct = 0`. -/
theorem claim7_pct_bounds (acc : ScoreAcc) :
    ∀ fs ∈ byFunctionOf acc, 0 ≤ fs.pct ∧ fs.pct ≤ 100 ∧ fs.max ≠ 0 ∧
      (fs.raw = 0 → fs.pct = 0) := by
  intro fs hfs
  simp only [byFunctionOf, List.mem_map] at hfs
  obtain ⟨i, -, rfl⟩ := hfs
  dsimp only
  have hc0 : ∀ x : ℚ, 0 ≤ clamp01 x := fun x => le_max_left 0 _
  have hc1 : ∀ x : ℚ, clamp01 x ≤ 1 :=
    fun x => max_le zero_le_one (min_le_left 1 x)
  refine ⟨mul_nonneg (hc0 _) (by norm_num), ?_, ?_, ?_⟩
  · calc clamp01 _ * 100 ≤ 1 * 100 :=
        mul_le_mul_of_nonneg_right (hc1 _) (by norm_num)
      _ = 100 := one_mul _
  · split
    · norm_num [eps]
    · assumption
  · intro hr
    rw [hr, zero_div]
    norm_num [clamp01]

/-- Witness for C7: the first `FunctionScore` of an empty scoring run
(no item touched dimension 0, so its `max` was floored to `1e-9` and its
`pct` is `0`). -/
theorem claim7_pct_bounds_witness :
    ((⟨0, 0, eps, 0⟩ : FuncScore) ∈ byFunctionOf initAcc) ∧
    (0 ≤ (⟨0, 0, eps, 0⟩ : FuncScore).pct ∧
      (⟨0, 0, eps, 0⟩ : FuncScore).pct ≤ 100 ∧
      (⟨0, 0, eps, 0⟩ : FuncScore).max ≠ 0 ∧
      ((⟨0, 0, eps, 0⟩ : FuncScore).raw = 0 →
        (⟨0, 0, eps, 0⟩ : FuncScore).pct = 0)) := by
  have hm : (⟨0, 0, eps, 0⟩ : FuncScore) ∈ byFunctionOf initAcc :=
    List.mem_map.mpr ⟨0, List.mem_finRange 0, by norm_num [initAcc, clamp01]⟩
  exact ⟨hm, claim7_pct_bounds initAcc _ hm⟩

/-- Claim C10.  With a non-negative weight table, each dimension's
accumulated `raw` stays within `[0, max]` after any scoring run, so the
`clamp01` inside the `pct` computation never actually truncates. -/
theorem claim10_raw_le_max (w : String → Option WeightRow) (ans : List Answer)
    (hw : ∀ id row, w id = some row →
      ∀ i : Fin 8, 0 ≤ getW row.A i.val ∧ 0 ≤ getW row.B i.val) :
    (∀ i, 0 ≤ (scoreRun w ans).raw i ∧
      (scoreRun w ans).raw i ≤ (scoreRun w ans).max i) ∧
    ∀ fs ∈ byFunctionOf (scoreRun w ans),
      clamp01 (fs.raw / fs.max) = fs.raw / fs.max := by
  have hinv : ∀ i, 0 ≤ (scoreRun w ans).raw i ∧ 0 ≤ (scoreRun w ans).max i ∧
      (scoreRun w ans).raw i ≤ (scoreRun w ans).max i :=
    scoreFold_invariant w hw ans initAcc (by intro i; norm_num [initAcc])
  constructor
  · exact fun i => ⟨(hinv i).1, (hinv i).2.2⟩
  · intro fs hfs
    simp only [byFunctionOf, List.mem_map] at hfs
    obtain ⟨i, -, rfl⟩ := hfs
    dsimp only
    by_cases hz : (scoreRun w ans).max i = 0
    · rw [if_pos hz]
      have hr0 : (scoreRun w ans).raw i = 0 :=
        le_antisymm (hz ▸ (hinv i).2.2) (hinv i).1
      rw [hr0, zero_div]
      norm_num [clamp01]
    · rw [if_neg hz]
      have hpos : 0 < (scoreRun w ans).max i :=
        lt_of_le_of_ne (hinv i).2.1 (Ne.symm hz)
      have hq1 : (scoreRun w ans).raw i / (scoreRun w ans).max i ≤ 1 :=
        (div_le_one hpos).mpr (hinv i).2.2
      have hq0 : 0 ≤ (scoreRun w ans).raw i / (scoreRun w ans).max i :=
        div_nonneg (hinv i).1 (hinv i).2.1
      unfold clamp01
      rw [min_eq_right hq1, max_eq_right hq0]

/-- Claim C5.  Type resolution provenance: whenever the pair table (the
`byPair` field, or `pairs` in its absence) contains an entry for
`(dominant, auxiliary)` or `(auxiliary, dominant)` — a genuine entry,
i.e. one whose code is not the `"Unknown"` sentinel — the returned
provenance tag is the pair tier (`how = 'byPair'`, the tag the source
spells `byPair`), regardless of what the dominant-only table holds; and
with no mapping data at all the tag is `heuristic` and the produced code
is a valid 4-letter type code.  The embedded resolver is a total
function: it returns a result for every input, modelling that `inferType`
never throws on the eight `byFunction` scores. -/
theorem claim5_resolver_cascade :
    (∀ (bf : List FuncScore) (tm : TypeMapT) (sets : Sets)
        (dm : List ((ℕ × ℕ) × TypeInfo)) (e : TypeInfo),
      bf.length = 8 → dmOf tm = some dm →
      pairHit dm (domOf bf).idx (auxOf bf).idx = some e →
      e.code ≠ "Unknown" →
      (inferType bf (some tm) sets).1.how = How.byPair) ∧
    (∀ (bf : List FuncScore) (sets : Sets),
      (inferType bf none sets).1.how = How.heuristic ∧
      isValidCode (inferType bf none sets).1.code = true) := by
  constructor
  · intro bf tm sets dm e hlen hdm hhit hcode
    unfold inferType
    dsimp only
    rw [hdm]
    dsimp only
    rw [hhit]
    dsimp only
    simp [hcode]
  · intro bf sets
    constructor
    · rfl
    · show isValidCode (heuristicType sets bf).code = true
      unfold heuristicType
      dsimp only
      split_ifs <;> rfl

/-- Witness for C5: on `bfC2` (all `pct` ties, so dominant is index 0 and
auxiliary index 1) with the table `tmW`, whose dominant-only tier would
also match, resolution reports the pair tier; with no table the
heuristic produces a valid code. -/
theorem claim5_resolver_cascade_witness :
    (bfC2.length = 8 ∧
      dmOf tmW = some [((0, 1), ⟨"INTJ", none, none⟩)] ∧
      pairHit [((0, 1), ⟨"INTJ", none, none⟩)] (domOf bfC2).idx (auxOf bfC2).idx =
        some ⟨"INTJ", none, none⟩ ∧
      (⟨"INTJ", none, none⟩ : TypeInfo).code ≠ "Unknown") ∧
    (inferType bfC2 (some tmW) defaultSets).1.how = How.byPair ∧
    ((inferType bfC2 none defaultSets).1.how = How.heuristic ∧
      isValidCode (inferType bfC2 none defaultSets).1.code = true) := by
  have h1 : dmOf tmW = some [((0, 1), ⟨"INTJ", none, none⟩)] := rfl
  have h2 : pairHit [((0, 1), ⟨"INTJ", none, none⟩)]
      (domOf bfC2).idx (auxOf bfC2).idx = some ⟨"INTJ", none, none⟩ := rfl
  have h3 : (⟨"INTJ", none, none⟩ : TypeInfo).code ≠ "Unknown" := by
    simp
  exact ⟨⟨rfl, h1, h2, h3⟩,
    claim5_resolver_cascade.1 bfC2 tmW defaultSets _ _ rfl h1 h2 h3,
    claim5_resolver_cascade.2 bfC2 defaultSets⟩

/-- A fold of `idxWrite` steps leaves slot `i` untouched when no key
refers to `i`, either as a canonical numeric key or through the
dimension-symbol table. -/
theorem foldl_idxWrite_preserve (x : JVal) (n2i : List (String × ℕ)) (i : ℕ) :
    ∀ (keys : List String) (out : List (Option ℚ)),
      (∀ kk ∈ keys, strToNat? kk ≠ some i ∧ n2i.lookup kk ≠ some i) →
      (keys.foldl (idxWrite x n2i) out).get? i = out.get? i
  | [], _, _ => rfl
  | k :: t, out, h => by
    rw [List.foldl_cons]
    have hk := h k (List.mem_cons_self k t)
    rw [foldl_idxWrite_preserve x n2i i t _
      (fun kk hkk => h kk (List.mem_cons_of_mem k hkk))]
    unfold idxWrite
    cases hn : strToNat? k with
    | some n =>
      dsimp only
      have hni : n ≠ i := fun he => hk.1 (he ▸ hn)
      by_cases h8 : n < 8
      · rw [if_pos h8, List.get?_eq_getElem?, List.get?_eq_getElem?,
          List.getElem?_set_ne hni]
      · rw [if_neg h8]
    | none =>
      dsimp only
      cases hl : n2i.lookup k with
      | some n =>
        dsimp only
        have hni : n ≠ i := fun he => hk.2 (he ▸ hl)
        by_cases h8 : n < 8
        · rw [if_pos h8, List.get?_eq_getElem?, List.get?_eq_getElem?,
            List.getElem?_set_ne hni]
        · rw [if_neg h8]
      | none => rfl

/-- Counterexample to C8 as stated: a non-empty string is neither an
array nor an object, yet the normalizer does not return an empty map for
it — `Object.keys` enumerates a string's character positions, so each
position becomes an item id carrying an all-zero row. -/
theorem claim8_counterexample :
    normalizeWeightsShape (.jstr "ab") defaultKeyToIndex =
      [("0", zeroRow), ("1", zeroRow)] ∧
    normalizeWeightsShape (.jstr "ab") defaultKeyToIndex ≠ [] := by
  constructor
  · decide
  · decide

/-- Claim C8, amended.  A top-level weight source that is a number or a
boolean (or `null`/`undefined`, or the empty string) yields an empty
normalized map without throwing; a non-empty string — key-enumerable
like an array-like object — instead yields one all-zero row per
character position (e.g. `"ab"` yields rows at ids `"0"` and `"1"`),
still without throwing; and within an accepted per-item entry every
dimension slot whose index or key is absent from the source keeps
weight `0` (object entries leave unreferenced slots at their zero
default; arrays shorter than 8 read `undefined || 0` past their end). -/
theorem claim8_weight_shapes :
    (∀ (q : ℚ) (n2i : List (String × ℕ)),
      normalizeWeightsShape (.jnum q) n2i = []) ∧
    (∀ (b : Bool) (n2i : List (String × ℕ)),
      normalizeWeightsShape (.jbool b) n2i = []) ∧
    (∀ n2i : List (String × ℕ), normalizeWeightsShape .jnull n2i = [] ∧
      normalizeWeightsShape (.jstr "") n2i = []) ∧
    (∀ (fs : List (String × JVal)) (n2i : List (String × ℕ)) (i : ℕ),
      i < 8 →
      (∀ kk ∈ fs.map Prod.fst, strToNat? kk ≠ some i ∧ n2i.lookup kk ≠ some i) →
      (indexifyEight (.jobj fs) n2i).get? i = some (some 0)) ∧
    (∀ (es : List JVal) (n2i : List (String × ℕ)) (i : ℕ),
      i < 8 → es.length ≤ i →
      (indexifyEight (.jarr es) n2i).get? i = some (some 0)) := by
  refine ⟨?_, ?_, ?_, ?_, ?_⟩
  · intro q n2i
    unfold normalizeWeightsShape
    by_cases hq : q = 0 <;> simp [jtruthy, hq, jkeys]
  · intro b n2i
    unfold normalizeWeightsShape
    cases b <;> simp [jtruthy, jkeys]
  · intro n2i
    constructor <;> rfl
  · intro fs n2i i hi h
    unfold indexifyEight
    rw [if_neg (by simp [jtruthy])]
    show ((jkeys (.jobj fs)).foldl (idxWrite (.jobj fs) n2i)
      (List.replicate 8 (some 0))).get? i = some (some 0)
    rw [foldl_idxWrite_preserve (.jobj fs) n2i i (jkeys (.jobj fs))
      (List.replicate 8 (some 0)) h, List.get?_eq_getElem?,
      List.getElem?_replicate]
    simp [hi]
  · intro es n2i i hi hlen
    unfold indexifyEight
    rw [if_neg (by simp [jtruthy])]
    show (((List.range 8).map fun j =>
      let e := (es.get? j).getD .jnull
      if jtruthy e then jToNum e else some 0).get? i) = some (some 0)
    have hes : es[i]? = none := List.getElem?_eq_none hlen
    rw [List.get?_eq_getElem?, List.getElem?_map, List.getElem?_range hi]
    simp [hes, jtruthy]

/-- Witness for C8 (amended): an object entry naming only dimension 7
leaves dimension 0 at weight 0, and a one-element array entry leaves
dimension 3 at weight 0. -/
theorem claim8_weight_shapes_witness :
    ((0 : ℕ) < 8 ∧
      (∀ kk ∈ (["7"] : List String),
        strToNat? kk ≠ some 0 ∧ defaultKeyToIndex.lookup kk ≠ some 0) ∧
      (indexifyEight (.jobj [("7", .jnum 3)]) defaultKeyToIndex).get? 0 =
        some (some 0)) ∧
    ((3 : ℕ) < 8 ∧ ([JVal.jnum 5].length ≤ 3) ∧
      (indexifyEight (.jarr [.jnum 5]) defaultKeyToIndex).get? 3 =
        some (some 0)) := by
  have h1 : ∀ kk ∈ (["7"] : List String),
      strToNat? kk ≠ some 0 ∧ defaultKeyToIndex.lookup kk ≠ some 0 := by
    decide
  exact ⟨⟨by norm_num, h1,
      claim8_weight_shapes.2.2.2.1 [("7", .jnum 3)] defaultKeyToIndex 0
        (by norm_num) h1⟩,
    ⟨by norm_num, by norm_num,
      claim8_weight_shapes.2.2.2.2 [.jnum 5] defaultKeyToIndex 3
        (by norm_num) (by norm_num)⟩⟩

/-- Claim C9.  The eight `byFunction` records are sorted descending by
`pct`, ties resolved by ascending dimension index (the JS sort is stable
and `byFunction` is built in index order); the first four of that order
become dominant, auxiliary, tertiary and inferior. -/
theorem claim9_sort_canonical (acc : ScoreAcc) (tm : Option TypeMapT)
    (sets : Sets) :
    (sortDesc (byFunctionOf acc)).Pairwise
      (fun a b => b.pct < a.pct ∨ (a.pct = b.pct ∧ a.idx < b.idx)) ∧
    (inferType (byFunctionOf acc) tm sets).2 =
      (domOf (byFunctionOf acc), auxOf (byFunctionOf acc),
       ((sortDesc (byFunctionOf acc)).get? 2).getD dummyFS,
       ((sortDesc (byFunctionOf acc)).get? 3).getD dummyFS) := by
  have hpw : (byFunctionOf acc).Pairwise (fun a b => a.idx < b.idx) := by
    simp only [byFunctionOf, List.pairwise_map]
    refine (List.pairwise_lt_finRange 8).imp ?_
    intro i j hij
    simpa using hij
  have heq := sortDesc_eq_lex (byFunctionOf acc) hpw
  have hs : (List.insertionSort lexLE (byFunctionOf acc)).Pairwise lexLE :=
    List.sorted_insertionSort lexLE (byFunctionOf acc)
  have hperm : (List.insertionSort lexLE (byFunctionOf acc)).Perm
      (byFunctionOf acc) := List.perm_insertionSort lexLE (byFunctionOf acc)
  have hnd : ((byFunctionOf acc).map FuncScore.idx).Nodup := by
    simp only [byFunctionOf, List.map_map]
    exact List.Nodup.map (fun a b h => Fin.val_injective h)
      (List.nodup_finRange 8)
  have hnds : ((List.insertionSort lexLE (byFunctionOf acc)).map
      FuncScore.idx).Nodup := ((hperm.map FuncScore.idx).nodup_iff).mpr hnd
  have hne : (List.insertionSort lexLE (byFunctionOf acc)).Pairwise
      (fun a b => a.idx ≠ b.idx) := List.pairwise_map.mp hnds
  constructor
  · rw [heq]
    refine (hs.and hne).imp ?_
    rintro a b ⟨hab | ⟨h, hi⟩, hne'⟩
    · exact Or.inl hab
    · exact Or.inr ⟨h.symm, lt_of_le_of_ne hi hne'⟩
  · rfl

/-- Witness for C10: the all-ones weight table `w0` is non-negative, and
the invariant holds for a one-item run. -/
theorem claim10_raw_le_max_witness :
    (∀ id row, w0 id = some row →
      ∀ i : Fin 8, 0 ≤ getW row.A i.val ∧ 0 ≤ getW row.B i.val) ∧
    ((∀ i, 0 ≤ (scoreRun w0 [⟨"0", some 5⟩]).raw i ∧
      (scoreRun w0 [⟨"0", some 5⟩]).raw i ≤ (scoreRun w0 [⟨"0", some 5⟩]).max i) ∧
    ∀ fs ∈ byFunctionOf (scoreRun w0 [⟨"0", some 5⟩]),
      clamp01 (fs.raw / fs.max) = fs.raw / fs.max) := by
  have hw0 : ∀ id row, w0 id = some row →
      ∀ i : Fin 8, 0 ≤ getW row.A i.val ∧ 0 ≤ getW row.B i.val := by
    intro id row h i
    simp only [w0] at h
    split at h
    · cases h
      fin_cases i <;> norm_num [getW, row0, List.replicate]
    · exact absurd h (by simp)
  exact ⟨hw0, claim10_raw_le_max w0 [⟨"0", some 5⟩] hw0⟩

end JungArch
